import Mathlib

/-!
Verification of the view/host synchronization layer of the molecule_renumber
viewer (source: src/ngl_viewer.js).

Embedding conventions:
* A JavaScript string is modelled as its list of UTF-16 code units, `CU := List Nat`.
  JS `String.prototype.substring`, `split`, `trim`, `startsWith` and the default
  `Array.prototype.sort` comparator all operate on code units, so this is exact.
* The renderer (NGL) selection-language strings built by the code are embedded as
  their syntax trees (`SelExpr`): the code only ever builds `[RES]` residue-name
  selections, `@i` atom-index selections, and `" or "`-joins of those.
* Colors: the code builds the strings `hsl(H, 70%, 50%)` (with `H` a JS number),
  `"white"` and `"#00ff00"`; these are embedded as the structured values
  `ColorVal.hsl H 70 50`, `ColorVal.white`, `ColorVal.green`, with the hue kept
  as an exact rational.
* The module-level mutable state (`currentComponent`, `selectionRepresentation`,
  the NGL stage's component list, the bridge) is a `VState` record; every
  function of the source becomes a state-passing function.  The asynchronous
  `stage.loadFile(...).then(...).catch(...)` is split into the synchronous call
  phase (`loadCall`), and the two completion events (`loadResolveOk`,
  `loadResolveErr`) that may fire later, in any order, once per pending attempt.
* NGL engine objects are identified by ids drawn from a fresh-id counter, so
  that JS reference equality becomes id equality.
-/

/-! ## JS strings as code-unit lists -/

/-- A JavaScript string, as its list of UTF-16 code units. -/
abbrev CU := List Nat

/-- Code units that `String.prototype.trim` removes (ECMAScript white space and
line terminators). -/
def isJsSpace (c : Nat) : Bool :=
  [9, 10, 11, 12, 13, 32, 160, 5760, 8192, 8193, 8194, 8195, 8196, 8197, 8198,
    8199, 8200, 8201, 8202, 8232, 8233, 8239, 8287, 12288, 65279].contains c

/-- JS `s.trim()`: strip leading and trailing white space. -/
def trimCU (s : CU) : CU :=
  ((s.dropWhile isJsSpace).reverse.dropWhile isJsSpace).reverse

/-- Auxiliary accumulator recursion for `splitLines`. -/
def splitLinesAux : CU → CU → List CU
  | [], acc => [acc.reverse]
  | c :: rest, acc =>
    if c = 10 then acc.reverse :: splitLinesAux rest []
    else splitLinesAux rest (c :: acc)

/-- JS `pdbText.split('\n')` (ngl_viewer.js line 27). -/
def splitLines (s : CU) : List CU := splitLinesAux s []

/-- Code units of `"ATOM"`. -/
def atomTag : CU := [65, 84, 79, 77]

/-- Code units of `"HETATM"`. -/
def hetatmTag : CU := [72, 69, 84, 65, 84, 77]

/-- JS `line.startsWith('ATOM') || line.startsWith('HETATM')` (line 29). -/
def isRecordLine (line : CU) : Bool :=
  atomTag.isPrefixOf line || hetatmTag.isPrefixOf line

/-- JS `line.substring(17, 21).trim()` (line 31): the candidate residue name of
a record line. -/
def lineValue (line : CU) : CU := trimCU ((line.drop 17).take 4)

/-- JS `Set.prototype.add`: append a value unless already present (insertion
order preserved, first occurrence kept). -/
def insertVal (acc : List CU) (v : CU) : List CU :=
  if v ∈ acc then acc else acc ++ [v]

/-- The `for (const line of lines)` loop of `extractUniqueResnames`
(lines 28-36), with the accumulated `Set` made explicit. -/
def collectResnames : List CU → List CU → List CU
  | acc, [] => acc
  | acc, line :: rest =>
    if isRecordLine line then
      if lineValue line = [] then collectResnames acc rest
      else collectResnames (insertVal acc (lineValue line)) rest
    else collectResnames acc rest

/-- JS `Array.from(resnames).sort()` applied to the collected set: the default
sort comparator on strings is lexicographic on UTF-16 code units, which on
`CU = List Nat` is exactly Mathlib's lexicographic linear order. -/
def extractFromLines (lines : List CU) : List CU :=
  List.insertionSort (· ≤ ·) (collectResnames [] lines)

/-- JS `extractUniqueResnames(pdbText)` (lines 25-38). -/
def extractUniqueResnames (pdbText : CU) : List CU :=
  extractFromLines (splitLines pdbText)

/-! ## Colors and the color scheme object -/

/-- The color value strings the code produces, structured:
`hsl(H, S%, L%)`, `"white"`, `"#00ff00"`. -/
inductive ColorVal where
  | hsl (hue : ℚ) (saturation lightness : ℕ)
  | white
  | green
deriving DecidableEq

/-- JS object property assignment `obj[k] = v`: overwrite in place if the key
exists, else append (JS objects keep first-insertion key order). -/
def objSet {V : Type} : List (CU × V) → CU → V → List (CU × V)
  | [], k, v => [(k, v)]
  | (k1, v1) :: rest, k, v =>
    if k1 = k then (k1, v) :: rest else (k1, v1) :: objSet rest k v

/-- JS object property read `obj[k]`: `none` models `undefined`. -/
def objGet {V : Type} : List (CU × V) → CU → Option V
  | [], _ => none
  | (k1, v1) :: rest, k => if k1 = k then some v1 else objGet rest k

/-- Code units of the wildcard key `"*"`. -/
def starKey : CU := [42]

/-- The color the loop body of `generateColorScheme` (lines 44-48) builds for
index `i` over `count` residues: `hsl((i*360)/count, 70%, 50%)`, the hue as an
exact rational. -/
def hueEntry (count : ℕ) (i : ℕ) : ColorVal :=
  ColorVal.hsl (((i : ℚ) * 360) / (count : ℚ)) 70 50

/-- JS `generateColorScheme(resnames)` (lines 40-52): one evenly spaced hue per
entry, then the wildcard key `"*"` is assigned `"white"` last. -/
def generateColorScheme (resnames : List CU) : List (CU × ColorVal) :=
  let count := resnames.length
  let withHues := (List.enum resnames).foldl
    (fun obj p => objSet obj p.2 (hueEntry count p.1)) []
  objSet withHues starKey ColorVal.white

/-- Whether a color value is one of the hue-assigned `hsl(...)` colors. -/
def isHslVal : ColorVal → Bool
  | .hsl _ _ _ => true
  | _ => false

/-- Number of hue-colored entries of a color scheme object. -/
def countHsl (obj : List (CU × ColorVal)) : Nat :=
  (obj.filter fun p => isHslVal p.2).length

/-! ## Selection expressions -/

/-- Syntax trees of the NGL selection strings the code builds:
`""`, `@i` (0-based atom index), `[RES]` (residue name), `a or b`. -/
inductive SelExpr where
  | empty
  | atomIndex (i : ℤ)
  | byResname (r : CU)
  | or (a b : SelExpr)
deriving DecidableEq

/-- An atom, as far as the selection language used by this code observes it:
its 0-based index and its residue name. -/
structure Atom where
  idx : ℤ
  resname : CU
deriving DecidableEq

/-- Denotation of a selection expression on an atom. -/
def SelExpr.selects : SelExpr → Atom → Bool
  | .empty, _ => false
  | .atomIndex i, a => a.idx == i
  | .byResname r, a => a.resname == r
  | .or x y, a => x.selects a || y.selects a

/-- JS `parts.join(" or ")` on selection expressions (empty join is the empty
selection; the callers below only join non-empty lists). -/
def joinOrList : List SelExpr → SelExpr
  | [] => .empty
  | [e] => e
  | e :: rest => .or e (joinOrList rest)

/-- JS `data.serials.map(s => `@${s - 1}`).join(" or ")` (line 99), structured. -/
def hlSele (serials : List ℤ) : SelExpr :=
  joinOrList (serials.map fun s => SelExpr.atomIndex (s - 1))

/-! ## Viewer state -/

/-- One NGL representation, as created by `addRepresentation` calls of the
code.  `id` models JS object identity; `color` is the `color` option passed
(`none` would be JS `undefined`); `radiusScale` is only passed (as `1.5`) for
the highlight overlay. -/
structure ViewRep where
  id : ℕ
  sele : SelExpr
  color : Option ColorVal
  radiusScale : Option ℚ
deriving DecidableEq

/-- One structure component of the NGL stage (the object `o` that
`stage.loadFile` resolves with). -/
structure Comp where
  id : ℕ
  text : CU
  reps : List ViewRep
deriving DecidableEq

/-- The two `reason` payloads of the `"Clearing selection"` log (line 108). -/
inductive ClearReason where
  | emptySerials
  | noComponent
deriving DecidableEq

/-- View-to-host messages and console writes, structured. -/
inductive Event where
  | logDetected (resnames : List CU) (scheme : List (CU × ColorVal))
  | logHighlightCalled (serials : List ℤ)
  | logCreating (sele : SelExpr)
  | logClearing (reason : ClearReason)
  | loadError
  | pick (chain : CU) (resno : ℤ) (resname : CU) (atomname : CU) (serial : ℤ)
deriving DecidableEq

/-- An in-flight `stage.loadFile` promise together with the values its `then`
closure captured at call time. -/
structure PendingLoad where
  attempt : ℕ
  text : CU
  resnames : List CU
  scheme : List (CU × ColorVal)
deriving DecidableEq

/-- The whole mutable state of ngl_viewer.js: the bridge and its two event
sinks, the stage's component list, the `currentComponent` and
`selectionRepresentation` references (by id), the pending load promises, and
fresh-id counters for objects and load attempts. -/
structure VState where
  bridge : Bool
  sent : List Event
  console : List Event
  comps : List Comp
  current : Option ℕ
  selRep : Option ℕ
  pending : List PendingLoad
  nextId : ℕ
  nextAttempt : ℕ
deriving DecidableEq

/-- The state at script start (no structure, nothing pending, no logs);
`bridge` records whether the QWebChannel bridge is attached. -/
def initState (bridge : Bool) : VState :=
  { bridge := bridge, sent := [], console := [], comps := [], current := none,
    selRep := none, pending := [], nextId := 0, nextAttempt := 0 }

/-! ## Operations -/

/-- JS `sendLog(message, data)` (lines 3-15): to the bridge when attached,
otherwise to the local console. -/
def sendLog (st : VState) (e : Event) : VState :=
  if st.bridge then { st with sent := st.sent ++ [e] }
  else { st with console := st.console ++ [e] }

/-- The click handler (lines 122-139): no event when the click resolved to no
atom; otherwise a `pick` message, sent only when the bridge is attached (the
source has no `else` branch here). -/
structure PickedAtom where
  chainname : CU
  resno : ℤ
  resname : CU
  atomname : CU
  serial : ℤ
deriving DecidableEq

/-- The body of `stage.signals.clicked.add(...)` (lines 122-139). -/
def onClicked (st : VState) (pickData : Option PickedAtom) : VState :=
  match pickData with
  | none => st
  | some a =>
    if st.bridge then
      { st with sent := st.sent ++
          [.pick a.chainname a.resno a.resname a.atomname a.serial] }
    else st

/-- Remove the representation with id `rid` from the component with id `cid`
(JS `comp.removeRepresentation(rep)` by reference). -/
def removeRepFrom (comps : List Comp) (cid rid : ℕ) : List Comp :=
  comps.map fun c =>
    if c.id = cid then { c with reps := c.reps.filter fun r => r.id != rid } else c

/-- Append a representation to the component with id `cid`
(JS `comp.addRepresentation(...)`). -/
def addRepTo (comps : List Comp) (cid : ℕ) (rep : ViewRep) : List Comp :=
  comps.map fun c => if c.id = cid then { c with reps := c.reps ++ [rep] } else c

/-- The overlay representation created at lines 101-105: green ball+stick with
`radiusScale: 1.5` over the serial selection. -/
def mkOverlay (rid : ℕ) (serials : List ℤ) : ViewRep :=
  { id := rid, sele := hlSele serials, color := some .green,
    radiusScale := some ((3 : ℚ) / 2) }

/-- Lines 89-97 of `highlightAtoms`: drop the previous selection
representation, if any, from the current component (the `try`/`catch` around
the removal swallows any error; removal of an absent representation is a
no-op here), then clear the reference. -/
def clearSelRep (st : VState) : VState :=
  match st.selRep with
  | none => st
  | some rid =>
    let comps1 := match st.current with
      | none => st.comps
      | some cid => removeRepFrom st.comps cid rid
    { st with comps := comps1, selRep := none }

/-- Lines 101-105 of `highlightAtoms`: create the overlay representation on
the current component and store the reference. -/
def addOverlayTo (st : VState) (cid : ℕ) (serials : List ℤ) : VState :=
  { st with
    comps := addRepTo st.comps cid (mkOverlay st.nextId serials),
    selRep := some st.nextId,
    nextId := st.nextId + 1 }

/-- Lines 98-109 of `highlightAtoms`: after the old overlay is cleared,
either build the new one (non-empty serials and a current component) or log
why not, the reason distinguishing empty input from a missing component. -/
def hlFinish (st : VState) (serials : List ℤ) : VState :=
  if serials = [] then
    sendLog st (.logClearing .emptySerials)
  else
    match st.current with
    | none => sendLog st (.logClearing .noComponent)
    | some cid => addOverlayTo (sendLog st (.logCreating (hlSele serials))) cid serials

/-- JS `highlightAtoms(data)` (lines 87-110): entry log, then removal of the
previous overlay, then the guarded rebuild. -/
def highlightAtoms (st : VState) (serials : List ℤ) : VState :=
  hlFinish (clearSelRep (sendLog st (.logHighlightCalled serials))) serials

/-- Which engine calls of the teardown `try` block (lines 57-63) throw; the
`catch` ignores whichever error occurs. -/
structure TearOracle where
  failRemoveAll : Bool
  failRemove : Bool
deriving DecidableEq

/-- Lines 56-65 of `loadPDBFromText`: best-effort teardown of the previous
component.  If `removeAllRepresentations` throws, nothing was changed and
`remove` is not reached; if `remove` throws, the representations are gone but
the component stays on the stage.  `currentComponent = null` runs after the
`catch`, so it happens in every case. -/
def tearDownSome (st : VState) (o : TearOracle) (cid : ℕ) : VState :=
  if o.failRemoveAll then { st with current := none }
  else if o.failRemove then
    { st with
      comps := st.comps.map fun c => if c.id = cid then { c with reps := [] } else c,
      current := none }
  else
    { st with
      comps := (st.comps.map fun c => if c.id = cid then { c with reps := [] } else c).filter
        fun c => c.id != cid,
      current := none }

/-- Dispatch of the teardown on whether a component is present. -/
def tearDown (st : VState) (o : TearOracle) : VState :=
  match st.current with
  | none => st
  | some cid => tearDownSome st o cid

/-- The synchronous part of JS `loadPDBFromText(pdbText)` (lines 54-72):
teardown, residue extraction, color scheme, the `"Detected residue names"`
log, and the start of the asynchronous `stage.loadFile` call (registered as a
pending attempt; its completion is `loadResolveOk`/`loadResolveErr`). -/
def loadCall (st : VState) (text : CU) (o : TearOracle) : VState :=
  let st1 := tearDown st o
  let resnames := extractUniqueResnames text
  let scheme := generateColorScheme resnames
  let st2 := sendLog st1 (.logDetected resnames scheme)
  { st2 with
    pending := st2.pending ++
      [{ attempt := st2.nextAttempt, text := text, resnames := resnames,
         scheme := scheme }],
    nextAttempt := st2.nextAttempt + 1 }

/-- The base representations added in the `then` handler (lines 75-80): one
`ball+stick` per residue name, selecting by residue name, colored from the
captured color scheme. -/
def mkBaseReps (startId : ℕ) (resnames : List CU) (scheme : List (CU × ColorVal)) :
    List ViewRep :=
  (List.enum resnames).map fun p =>
    { id := startId + p.1, sele := .byResname p.2, color := objGet scheme p.2,
      radiusScale := none }

/-- The `then` handler of `stage.loadFile` (lines 72-81) firing for pending
attempt `a`: the engine hands over a new component (already added to the
stage), `currentComponent = o` runs unconditionally — the source has no check
that this attempt is still the latest — then the base representations are
added.  (`o.autoView()` has no modelled effect.) -/
def loadResolveOk (st : VState) (a : ℕ) : VState :=
  match st.pending.find? (fun p => p.attempt == a) with
  | none => st
  | some p =>
    let cid := st.nextId
    let comp : Comp :=
      { id := cid, text := p.text, reps := mkBaseReps (cid + 1) p.resnames p.scheme }
    { st with
      comps := st.comps ++ [comp],
      current := some cid,
      pending := st.pending.filter fun q => q.attempt != a,
      nextId := cid + 1 + p.resnames.length }

/-- The `catch` handler of `stage.loadFile` (lines 82-84) firing for pending
attempt `a`: `console.error` only — no retry, no state change. -/
def loadResolveErr (st : VState) (a : ℕ) : VState :=
  match st.pending.find? (fun p => p.attempt == a) with
  | none => st
  | some _ =>
    { st with console := st.console ++ [.loadError],
              pending := st.pending.filter fun q => q.attempt != a }

/-! ## Parser lemmas -/

theorem mem_insertVal {acc : List CU} {x v : CU} :
    v ∈ insertVal acc x ↔ v ∈ acc ∨ v = x := by
  unfold insertVal
  split
  · rename_i h
    constructor
    · exact Or.inl
    · rintro (hv | rfl)
      · exact hv
      · exact h
  · simp

theorem nodup_insertVal {acc : List CU} {x : CU} (h : acc.Nodup) :
    (insertVal acc x).Nodup := by
  unfold insertVal
  split
  · exact h
  · rename_i hx
    simp [List.nodup_append, h, hx]

theorem mem_collectResnames :
    ∀ (lines : List CU) (acc : List CU) (v : CU),
      v ∈ collectResnames acc lines ↔
        v ∈ acc ∨ ∃ l ∈ lines, isRecordLine l = true ∧ lineValue l = v ∧ v ≠ []
  | [], acc, v => by simp [collectResnames]
  | line :: rest, acc, v => by
    unfold collectResnames
    split
    · rename_i hrec
      split
      · rename_i hempty
        rw [mem_collectResnames rest acc v]
        constructor
        · rintro (h | h)
          · exact Or.inl h
          · exact Or.inr (by obtain ⟨l, hl, h1, h2, h3⟩ := h; exact ⟨l, by simp [hl], h1, h2, h3⟩)
        · rintro (h | ⟨l, hl, h1, h2, h3⟩)
          · exact Or.inl h
          · rcases List.mem_cons.mp hl with rfl | hl'
            · exact absurd h2 (by rw [hempty]; rintro rfl; exact h3 rfl)
            · exact Or.inr ⟨l, hl', h1, h2, h3⟩
      · rename_i hempty
        rw [mem_collectResnames rest (insertVal acc (lineValue line)) v]
        rw [mem_insertVal]
        constructor
        · rintro ((h | rfl) | h)
          · exact Or.inl h
          · exact Or.inr ⟨line, by simp, hrec, rfl, hempty⟩
          · obtain ⟨l, hl, h1, h2, h3⟩ := h
            exact Or.inr ⟨l, by simp [hl], h1, h2, h3⟩
        · rintro (h | ⟨l, hl, h1, h2, h3⟩)
          · exact Or.inl (Or.inl h)
          · rcases List.mem_cons.mp hl with rfl | hl'
            · exact Or.inl (Or.inr h2.symm)
            · exact Or.inr ⟨l, hl', h1, h2, h3⟩
    · rename_i hrec
      rw [mem_collectResnames rest acc v]
      constructor
      · rintro (h | ⟨l, hl, h1, h2, h3⟩)
        · exact Or.inl h
        · exact Or.inr ⟨l, by simp [hl], h1, h2, h3⟩
      · rintro (h | ⟨l, hl, h1, h2, h3⟩)
        · exact Or.inl h
        · rcases List.mem_cons.mp hl with rfl | hl'
          · exact absurd h1 (by simp [hrec])
          · exact Or.inr ⟨l, hl', h1, h2, h3⟩

theorem nodup_collectResnames :
    ∀ (lines : List CU) (acc : List CU), acc.Nodup → (collectResnames acc lines).Nodup
  | [], _, h => h
  | _ :: rest, acc, h => by
    unfold collectResnames
    split
    · split
      · exact nodup_collectResnames rest acc h
      · exact nodup_collectResnames rest _ (nodup_insertVal h)
    · exact nodup_collectResnames rest acc h

theorem collectResnames_skip (m : CU) (hbad : isRecordLine m = false ∨ lineValue m = []) :
    ∀ (xs : List CU) (acc : List CU) (ys : List CU),
      collectResnames acc (xs ++ m :: ys) = collectResnames acc (xs ++ ys) := by
  intro xs
  induction xs with
  | nil =>
    intro acc ys
    rcases hbad with h | h <;> simp [collectResnames, h]
  | cons x xs ih =>
    intro acc ys
    simp only [List.cons_append]
    unfold collectResnames
    split
    · split
      · exact ih acc ys
      · exact ih _ ys
    · exact ih acc ys

theorem sorted_extractFromLines (lines : List CU) :
    List.Sorted (· ≤ ·) (extractFromLines lines) :=
  List.sorted_insertionSort _ _

theorem nodup_extractFromLines (lines : List CU) :
    (extractFromLines lines).Nodup :=
  (List.perm_insertionSort _ _).nodup_iff.mpr (nodup_collectResnames lines [] List.nodup_nil)

theorem mem_extractFromLines (lines : List CU) (v : CU) :
    v ∈ extractFromLines lines ↔
      ∃ l ∈ lines, isRecordLine l = true ∧ lineValue l = v ∧ v ≠ [] := by
  unfold extractFromLines
  rw [List.mem_insertionSort, mem_collectResnames]
  simp

/--
Claim C2: for every input structure text, the residue-identifier list produced
by `extractUniqueResnames` is sorted ascending by (code-unit lexicographic)
string value, contains no duplicates, contains exactly the nonempty trimmed
values extracted from lines beginning with `ATOM` or `HETATM` (hence excludes
every value from a non-ATOM/HETATM line and all empty extracted values), and
is invariant under permutation of the input lines.
-/
theorem extract_resnames_spec (text : CU) :
    List.Sorted (· ≤ ·) (extractUniqueResnames text) ∧
    (extractUniqueResnames text).Nodup ∧
    (∀ v, v ∈ extractUniqueResnames text ↔
      ∃ l ∈ splitLines text, isRecordLine l = true ∧ lineValue l = v ∧ v ≠ []) ∧
    (∀ text2, List.Perm (splitLines text2) (splitLines text) →
      extractUniqueResnames text2 = extractUniqueResnames text) := by
  refine ⟨sorted_extractFromLines _, nodup_extractFromLines _,
    fun v => mem_extractFromLines _ v, fun text2 hperm => ?_⟩
  apply List.eq_of_perm_of_sorted _ (sorted_extractFromLines _) (sorted_extractFromLines _)
  refine (List.perm_ext_iff_of_nodup (nodup_extractFromLines _) (nodup_extractFromLines _)).mpr ?_
  intro v
  rw [mem_extractFromLines, mem_extractFromLines]
  constructor
  · rintro ⟨l, hl, h⟩
    exact ⟨l, hperm.mem_iff.mp hl, h⟩
  · rintro ⟨l, hl, h⟩
    exact ⟨l, hperm.mem_iff.mpr hl, h⟩

/-- An ATOM record line for residue name `ALA` (columns 18-21 hold `ALA `). -/
def lineALA : CU := atomTag ++ List.replicate 13 32 ++ [65, 76, 65]

/-- An ATOM record line for residue name `GLY`. -/
def lineGLY : CU := atomTag ++ List.replicate 13 32 ++ [71, 76, 89]

/-- A HETATM record line for residue name `HOH`. -/
def lineHOH : CU := hetatmTag ++ List.replicate 11 32 ++ [72, 79, 72]

/-- Witness for C2 at a concrete input: swapping the two record lines leaves
the extracted residue list unchanged. -/
theorem extract_resnames_spec_witness :
    List.Perm (splitLines (lineHOH ++ [10] ++ lineALA)) (splitLines (lineALA ++ [10] ++ lineHOH)) ∧
    extractUniqueResnames (lineHOH ++ [10] ++ lineALA) =
      extractUniqueResnames (lineALA ++ [10] ++ lineHOH) :=
  ⟨by decide,
    (extract_resnames_spec (lineALA ++ [10] ++ lineHOH)).2.2.2 _ (by decide)⟩

/--
Claim C9: the structure parser is total (every function here is a total Lean
function evaluable on any code-unit list) and a malformed line — one lacking
the ATOM/HETATM prefix or whose extracted column span trims to empty — is
simply skipped: removing it from the split line list leaves the extracted
residue list unchanged, so processing of all other lines is unaffected and
the only observable effect is the value's absence.
-/
theorem parser_total_skips_malformed (t : CU) (xs ys : List CU) (m : CU)
    (hsplit : splitLines t = xs ++ m :: ys)
    (hbad : isRecordLine m = false ∨ lineValue m = []) :
    extractUniqueResnames t = extractFromLines (xs ++ ys) := by
  unfold extractUniqueResnames
  rw [hsplit]
  unfold extractFromLines
  rw [collectResnames_skip m hbad xs [] ys]

/-- Witness for C9: a text containing a line too short to carry the residue
span and lacking the record prefix parses to the same list as without it. -/
theorem parser_total_skips_malformed_witness :
    splitLines (lineALA ++ [10] ++ [65, 84]) = [lineALA] ++ [65, 84] :: [] ∧
    (isRecordLine [65, 84] = false ∨ lineValue ([65, 84] : CU) = []) ∧
    extractUniqueResnames (lineALA ++ [10] ++ [65, 84]) = extractFromLines ([lineALA] ++ []) :=
  ⟨by decide, Or.inl (by decide),
    parser_total_skips_malformed _ [lineALA] [] [65, 84] (by decide) (Or.inl (by decide))⟩

/-! ## Color scheme lemmas -/

theorem objSet_of_not_mem {V : Type} {obj : List (CU × V)} {k : CU} {v : V}
    (h : k ∉ obj.map Prod.fst) : objSet obj k v = obj ++ [(k, v)] := by
  induction obj with
  | nil => rfl
  | cons p rest ih =>
    obtain ⟨k1, v1⟩ := p
    simp only [List.map_cons, List.mem_cons] at h
    push_neg at h
    simp only [objSet, if_neg (Ne.symm h.1), List.cons_append]
    rw [ih h.2]

theorem objGet_objSet_self {V : Type} (obj : List (CU × V)) (k : CU) (v : V) :
    objGet (objSet obj k v) k = some v := by
  induction obj with
  | nil => simp [objSet, objGet]
  | cons p rest ih =>
    obtain ⟨k1, v1⟩ := p
    by_cases h : k1 = k
    · simp [objSet, objGet, h]
    · simp [objSet, objGet, h, ih]

theorem objGet_append_left {V : Type} {a : List (CU × V)} (b : List (CU × V)) {k : CU} {v : V}
    (h : objGet a k = some v) : objGet (a ++ b) k = some v := by
  induction a with
  | nil => simp [objGet] at h
  | cons p rest ih =>
    obtain ⟨k1, v1⟩ := p
    by_cases hk : k1 = k
    · simpa [objGet, hk] using h
    · simp only [objGet, if_neg hk] at h ⊢
      exact ih h

theorem objGet_eq_none_of_not_mem {V : Type} {obj : List (CU × V)} {k : CU}
    (h : k ∉ obj.map Prod.fst) : objGet obj k = none := by
  induction obj with
  | nil => rfl
  | cons p rest ih =>
    obtain ⟨k1, v1⟩ := p
    simp only [List.map_cons, List.mem_cons] at h
    push_neg at h
    simp only [objGet, if_neg (Ne.symm h.1)]
    exact ih h.2

theorem objGet_append_right {V : Type} {a : List (CU × V)} (b : List (CU × V)) {k : CU}
    (h : k ∉ a.map Prod.fst) : objGet (a ++ b) k = objGet b k := by
  induction a with
  | nil => rfl
  | cons p rest ih =>
    obtain ⟨k1, v1⟩ := p
    simp only [List.map_cons, List.mem_cons] at h
    push_neg at h
    simp only [List.cons_append, objGet, if_neg (Ne.symm h.1)]
    exact ih h.2

theorem foldl_objSet_eq {V : Type} (f : ℕ → V) :
    ∀ (l : List CU) (n : ℕ) (obj : List (CU × V)),
      l.Nodup → (∀ k ∈ obj.map Prod.fst, k ∉ l) →
      (List.enumFrom n l).foldl (fun o p => objSet o p.2 (f p.1)) obj =
        obj ++ (List.enumFrom n l).map (fun p => (p.2, f p.1))
  | [], n, obj, _, _ => by simp
  | r :: rest, n, obj, hnd, hdisj => by
    have hr : r ∉ obj.map Prod.fst := fun h => hdisj r h (List.mem_cons_self r rest)
    have step : objSet obj r (f n) = obj ++ [(r, f n)] := objSet_of_not_mem hr
    have hnd' : rest.Nodup := (List.nodup_cons.mp hnd).2
    have hdisj' : ∀ k ∈ (obj ++ [(r, f n)]).map Prod.fst, k ∉ rest := by
      intro k hk
      simp only [List.map_append, List.mem_append, List.map_cons, List.map_nil,
        List.mem_singleton] at hk
      rcases hk with hk | hk
      · exact fun hmem => hdisj k hk (List.mem_cons_of_mem r hmem)
      · subst hk
        exact (List.nodup_cons.mp hnd).1
    calc (List.enumFrom n (r :: rest)).foldl (fun o p => objSet o p.2 (f p.1)) obj
        = (List.enumFrom (n + 1) rest).foldl (fun o p => objSet o p.2 (f p.1))
            (obj ++ [(r, f n)]) := by
          simp only [List.enumFrom, List.foldl_cons, step]
      _ = (obj ++ [(r, f n)]) ++ (List.enumFrom (n + 1) rest).map (fun p => (p.2, f p.1)) :=
          foldl_objSet_eq f rest (n + 1) (obj ++ [(r, f n)]) hnd' hdisj'
      _ = obj ++ (List.enumFrom n (r :: rest)).map (fun p => (p.2, f p.1)) := by
          simp [List.enumFrom]

theorem map_fst_enumFrom_map {V : Type} (f : ℕ → V) :
    ∀ (l : List CU) (n : ℕ),
      ((List.enumFrom n l).map (fun p => (p.2, f p.1))).map Prod.fst = l
  | [], _ => rfl
  | r :: rest, n => by
    simp only [List.enumFrom, List.map_cons]
    rw [map_fst_enumFrom_map f rest (n + 1)]

theorem objGet_enumFrom_map {V : Type} (f : ℕ → V) :
    ∀ (l : List CU) (n : ℕ) (i : ℕ) (hi : i < l.length), l.Nodup →
      objGet ((List.enumFrom n l).map (fun p => (p.2, f p.1))) (l.get ⟨i, hi⟩) =
        some (f (n + i))
  | [], _, i, hi, _ => absurd hi (by simp)
  | r :: rest, n, 0, _, _ => by simp [List.enumFrom, objGet]
  | r :: rest, n, i + 1, hi, hnd => by
    have hne : r ≠ (r :: rest).get ⟨i + 1, hi⟩ := by
      intro h
      exact (List.nodup_cons.mp hnd).1 (h ▸ List.get_mem rest i (by simpa using hi))
    simp only [List.enumFrom, List.map_cons, objGet, List.get_cons_succ]
    rw [if_neg (by simpa using hne)]
    have := objGet_enumFrom_map f rest (n + 1) i (by simpa using hi) (List.nodup_cons.mp hnd).2
    simpa [Nat.add_assoc, Nat.add_comm 1 i] using this

theorem generateColorScheme_eq {resnames : List CU} (hnd : resnames.Nodup) :
    generateColorScheme resnames =
      objSet ((List.enum resnames).map
        (fun p => (p.2, hueEntry resnames.length p.1))) starKey ColorVal.white := by
  unfold generateColorScheme
  simp only []
  rw [show List.enum resnames = List.enumFrom 0 resnames from rfl]
  rw [foldl_objSet_eq (hueEntry resnames.length) resnames 0 [] hnd (by simp)]
  rfl

theorem countHsl_all {obj : List (CU × ColorVal)} (h : ∀ p ∈ obj, isHslVal p.2 = true) :
    countHsl obj = obj.length := by
  unfold countHsl
  rw [List.filter_eq_self.mpr h]

theorem countHsl_objSet_white :
    ∀ (obj : List (CU × ColorVal)) (k : CU), (∀ p ∈ obj, isHslVal p.2 = true) →
      k ∈ obj.map Prod.fst → countHsl (objSet obj k ColorVal.white) = obj.length - 1
  | [], k, _, hk => absurd hk (by simp)
  | (k1, v1) :: rest, k, hall, hk => by
    by_cases h : k1 = k
    · simp only [objSet, if_pos h]
      unfold countHsl
      simp only [List.filter_cons, show isHslVal ColorVal.white = false from rfl]
      simp only [Bool.false_eq_true, if_false]
      have : countHsl rest = rest.length :=
        countHsl_all (fun p hp => hall p (List.mem_cons_of_mem _ hp))
      unfold countHsl at this
      simp [this]
    · simp only [objSet, if_neg h]
      have hk' : k ∈ rest.map Prod.fst := by
        simp only [List.map_cons, List.mem_cons] at hk
        rcases hk with rfl | hk
        · exact absurd rfl h
        · exact hk
      have hrest : countHsl (objSet rest k ColorVal.white) = rest.length - 1 :=
        countHsl_objSet_white rest k (fun p hp => hall p (List.mem_cons_of_mem _ hp)) hk'
      have hlen : 1 ≤ rest.length := by
        rcases rest with _ | ⟨p, rest'⟩
        · simp at hk'
        · simp
      have hv1 : isHslVal v1 = true := hall (k1, v1) (List.mem_cons_self _ _)
      unfold countHsl at hrest ⊢
      rw [List.filter_cons, if_pos (by simpa using hv1), List.length_cons, List.length_cons]
      omega

theorem hueEntries_all_hsl (c : ℕ) :
    ∀ (l : List CU) (n : ℕ),
      ∀ p ∈ (List.enumFrom n l).map (fun p => (p.2, hueEntry c p.1)), isHslVal p.2 = true := by
  intro l n p hp
  simp only [List.mem_map] at hp
  obtain ⟨q, _, rfl⟩ := hp
  rfl

/--
Claim C3 (amended): for every duplicate-free residue list that does not
contain the reserved wildcard identifier `"*"`, the color map assigns the
residue at index `i` the color `hsl((i*360)/N, 70%, 50%)` (so the hue at
index 0 is 0 and hues are evenly spaced); for `N = 0` no division occurs (the
loop body never runs) and the map is exactly the wildcard entry; and in every
case — even without the two hypotheses — the wildcard key `"*"` is present
and mapped to white.  The claim as literally stated, without the `"*"`
exclusion, is refuted at the one-element list holding `"*"` itself, whose
index-0 entry is white rather than the claimed hue.
-/
theorem color_scheme_even_hues (resnames : List CU) (hnd : resnames.Nodup)
    (hstar : starKey ∉ resnames) :
    (∀ i (hi : i < resnames.length),
      objGet (generateColorScheme resnames) (resnames.get ⟨i, hi⟩) =
        some (ColorVal.hsl (((i : ℚ) * 360) / ((resnames.length : ℕ) : ℚ)) 70 50)) ∧
    (resnames = [] → generateColorScheme resnames = [(starKey, ColorVal.white)]) ∧
    (0 < resnames.length → hueEntry resnames.length 0 = ColorVal.hsl 0 70 50) ∧
    objGet (generateColorScheme resnames) starKey = some ColorVal.white := by
  refine ⟨?_, ?_, ?_, ?_⟩
  · intro i hi
    rw [generateColorScheme_eq hnd]
    have hkeys : starKey ∉ ((List.enum resnames).map
        (fun p => (p.2, hueEntry resnames.length p.1))).map Prod.fst := by
      rw [show List.enum resnames = List.enumFrom 0 resnames from rfl]
      rw [map_fst_enumFrom_map]
      exact hstar
    rw [objSet_of_not_mem hkeys]
    have h1 := objGet_enumFrom_map (hueEntry resnames.length) resnames 0 i hi hnd
    rw [Nat.zero_add] at h1
    rw [show List.enumFrom 0 resnames = List.enum resnames from rfl] at h1
    exact objGet_append_left _ h1
  · rintro rfl
    rfl
  · intro _
    unfold hueEntry
    norm_num
  · unfold generateColorScheme
    simp only []
    exact objGet_objSet_self _ _ _

/-- The wildcard entry is white for every input list, hypotheses or not
(the assignment `colorScheme["*"] = "white"` runs last). -/
theorem color_scheme_wildcard_any (resnames : List CU) :
    objGet (generateColorScheme resnames) starKey = some ColorVal.white := by
  unfold generateColorScheme
  simp only []
  exact objGet_objSet_self _ _ _

/-- Counterexample to C3 as literally stated: for the sorted, duplicate-free
residue list `["*"]` (N = 1), the entry at index 0 is white, not the claimed
`hsl((0*360)/1, 70%, 50%)`. -/
theorem color_scheme_starKey_counterexample :
    ([starKey] : List CU).Nodup ∧
    objGet (generateColorScheme [starKey]) (([starKey] : List CU).get ⟨0, by decide⟩) =
      some ColorVal.white ∧
    (some ColorVal.white : Option ColorVal) ≠
      some (ColorVal.hsl ((((0 : ℕ) : ℚ) * 360) / (((1 : ℕ) : ℚ))) 70 50) := by
  refine ⟨by decide, by decide, ?_⟩
  intro h
  simp at h

/-- Witness for C3 (amended) at the sorted two-residue list `["ALA", "HOH"]`. -/
theorem color_scheme_even_hues_witness :
    ([[65, 76, 65], [72, 79, 72]] : List CU).Nodup ∧
    starKey ∉ ([[65, 76, 65], [72, 79, 72]] : List CU) ∧
    ((∀ i (hi : i < ([[65, 76, 65], [72, 79, 72]] : List CU).length),
      objGet (generateColorScheme [[65, 76, 65], [72, 79, 72]])
          (([[65, 76, 65], [72, 79, 72]] : List CU).get ⟨i, hi⟩) =
        some (ColorVal.hsl (((i : ℚ) * 360) / ((([[65, 76, 65], [72, 79, 72]] : List CU).length : ℕ) : ℚ)) 70 50)) ∧
    (([[65, 76, 65], [72, 79, 72]] : List CU) = [] →
      generateColorScheme [[65, 76, 65], [72, 79, 72]] = [(starKey, ColorVal.white)]) ∧
    (0 < ([[65, 76, 65], [72, 79, 72]] : List CU).length →
      hueEntry ([[65, 76, 65], [72, 79, 72]] : List CU).length 0 = ColorVal.hsl 0 70 50) ∧
    objGet (generateColorScheme [[65, 76, 65], [72, 79, 72]]) starKey = some ColorVal.white) :=
  ⟨by decide, by decide,
    color_scheme_even_hues [[65, 76, 65], [72, 79, 72]] (by decide) (by decide)⟩

/--
Claim C10: the wildcard entry is written after the per-residue hue loop, so
the final map always sends `"*"` to white; if the parsed residue set itself
contains `"*"`, its hue assignment is silently overwritten and the map holds
fewer hue-colored entries than the list length N.
-/
theorem starKey_collision_overwritten (resnames : List CU) (hnd : resnames.Nodup)
    (hmem : starKey ∈ resnames) :
    objGet (generateColorScheme resnames) starKey = some ColorVal.white ∧
    countHsl (generateColorScheme resnames) = resnames.length - 1 ∧
    countHsl (generateColorScheme resnames) < resnames.length := by
  have hlen : 0 < resnames.length := List.length_pos.mpr (by rintro rfl; simp at hmem)
  have hcnt : countHsl (generateColorScheme resnames) = resnames.length - 1 := by
    rw [generateColorScheme_eq hnd]
    have hall := hueEntries_all_hsl resnames.length resnames 0
    have hkeys : starKey ∈ ((List.enumFrom 0 resnames).map
        (fun p => (p.2, hueEntry resnames.length p.1))).map Prod.fst := by
      rw [map_fst_enumFrom_map]
      exact hmem
    rw [show List.enum resnames = List.enumFrom 0 resnames from rfl]
    rw [countHsl_objSet_white _ starKey hall hkeys]
    simp
  exact ⟨color_scheme_wildcard_any resnames, hcnt, by omega⟩

/-- Witness for C10 at the concrete list `["*", "ALA"]`. -/
theorem starKey_collision_overwritten_witness :
    ([starKey, [65, 76, 65]] : List CU).Nodup ∧
    starKey ∈ ([starKey, [65, 76, 65]] : List CU) ∧
    (objGet (generateColorScheme [starKey, [65, 76, 65]]) starKey = some ColorVal.white ∧
    countHsl (generateColorScheme [starKey, [65, 76, 65]]) =
      ([starKey, [65, 76, 65]] : List CU).length - 1 ∧
    countHsl (generateColorScheme [starKey, [65, 76, 65]]) <
      ([starKey, [65, 76, 65]] : List CU).length) :=
  ⟨by decide, by decide,
    starKey_collision_overwritten [starKey, [65, 76, 65]] (by decide) (by decide)⟩

/-! ## Selection denotation lemmas -/

theorem selects_joinOrList :
    ∀ (l : List SelExpr) (a : Atom),
      (joinOrList l).selects a = true ↔ ∃ e ∈ l, e.selects a = true
  | [], a => by simp [joinOrList, SelExpr.selects]
  | [e], a => by simp [joinOrList]
  | e :: f :: rest, a => by
    have ih := selects_joinOrList (f :: rest) a
    rw [show joinOrList (e :: f :: rest) = SelExpr.or e (joinOrList (f :: rest)) from rfl]
    rw [show (SelExpr.or e (joinOrList (f :: rest))).selects a =
      (e.selects a || (joinOrList (f :: rest)).selects a) from rfl]
    rw [Bool.or_eq_true, ih]
    constructor
    · rintro (h | ⟨g, hg, h⟩)
      · exact ⟨e, by simp, h⟩
      · exact ⟨g, by simp [hg], h⟩
    · rintro ⟨g, hg, h⟩
      rcases List.mem_cons.mp hg with rfl | hg'
      · exact Or.inl h
      · exact Or.inr ⟨g, hg', h⟩

theorem selects_hlSele (serials : List ℤ) (a : Atom) :
    (hlSele serials).selects a = true ↔ ∃ s ∈ serials, a.idx = s - 1 := by
  unfold hlSele
  rw [selects_joinOrList]
  constructor
  · rintro ⟨e, he, hsel⟩
    simp only [List.mem_map] at he
    obtain ⟨s, hs, rfl⟩ := he
    refine ⟨s, hs, ?_⟩
    simpa [SelExpr.selects] using hsel
  · rintro ⟨s, hs, hidx⟩
    refine ⟨SelExpr.atomIndex (s - 1), List.mem_map.mpr ⟨s, hs, rfl⟩, ?_⟩
    simpa [SelExpr.selects] using hidx

/-! ## State-machine helper lemmas -/

/-- Whether a representation is a highlight overlay: only the overlay is ever
given a `radiusScale`. -/
def isOverlay (r : ViewRep) : Bool := r.radiusScale.isSome

/-- The highlight overlays present anywhere on the stage. -/
def overlaysIn : List Comp → List ViewRep
  | [] => []
  | c :: rest => c.reps.filter isOverlay ++ overlaysIn rest

/-- The highlight overlays present in a viewer state. -/
def overlaysOf (st : VState) : List ViewRep := overlaysIn st.comps

/-- The selections of the overlays present in a viewer state. -/
def overlaySeles (st : VState) : List SelExpr := (overlaysOf st).map ViewRep.sele

/-- The state invariant maintained by normal (non-racing) operation: every
overlay on the stage is the one tracked by `selectionRepresentation` and it
lives in the current component; all object ids are below the fresh-id
counter; component ids and per-component representation ids are distinct; and
the current component, if set, is on the stage. -/
def GoodState (st : VState) : Prop :=
  (∀ c ∈ st.comps, ∀ r ∈ c.reps, isOverlay r = true →
      st.selRep = some r.id ∧ st.current = some c.id) ∧
  (∀ c ∈ st.comps, c.id < st.nextId ∧ ∀ r ∈ c.reps, r.id < st.nextId) ∧
  (st.comps.map Comp.id).Nodup ∧
  (∀ c ∈ st.comps, (c.reps.map ViewRep.id).Nodup) ∧
  (st.current.all fun cid => st.comps.any fun c => c.id == cid) = true

instance (st : VState) : Decidable (GoodState st) := by
  unfold GoodState
  infer_instance

theorem overlaysIn_eq_nil_iff (comps : List Comp) :
    overlaysIn comps = [] ↔ ∀ c ∈ comps, ∀ r ∈ c.reps, isOverlay r = false := by
  induction comps with
  | nil => simp [overlaysIn]
  | cons c rest ih =>
    simp only [overlaysIn, List.append_eq_nil, ih, List.mem_cons]
    constructor
    · rintro ⟨h1, h2⟩ c' (rfl | hc') r hr
      · exact Bool.eq_false_iff.mpr fun hov =>
          (List.filter_eq_nil_iff.mp h1) r hr (by simp [hov])
      · exact h2 c' hc' r hr
    · intro h
      refine ⟨List.filter_eq_nil_iff.mpr fun r hr => ?_, fun c' hc' r hr => h c' (Or.inr hc') r hr⟩
      simp [h c (Or.inl rfl) r hr]

theorem sendLog_fields (st : VState) (e : Event) :
    (sendLog st e).comps = st.comps ∧ (sendLog st e).current = st.current ∧
    (sendLog st e).selRep = st.selRep ∧ (sendLog st e).pending = st.pending ∧
    (sendLog st e).nextId = st.nextId ∧ (sendLog st e).nextAttempt = st.nextAttempt ∧
    (sendLog st e).bridge = st.bridge := by
  unfold sendLog
  split <;> exact ⟨rfl, rfl, rfl, rfl, rfl, rfl, rfl⟩

theorem sendLog_of_bridge (st : VState) (e : Event) (h : st.bridge = true) :
    sendLog st e = { st with sent := st.sent ++ [e] } := by
  unfold sendLog
  rw [if_pos h]

theorem sendLog_of_no_bridge (st : VState) (e : Event) (h : st.bridge = false) :
    sendLog st e = { st with console := st.console ++ [e] } := by
  unfold sendLog
  rw [if_neg (by simp [h])]

theorem sendLog_good (st : VState) (e : Event) (hg : GoodState st) :
    GoodState (sendLog st e) := by
  unfold GoodState at hg ⊢
  obtain ⟨c1, c2, c3, c4, c5, c6, c7⟩ := sendLog_fields st e
  rw [c1, c2, c3, c5]
  exact hg

theorem removeRepFrom_map_id (comps : List Comp) (cid rid : ℕ) :
    (removeRepFrom comps cid rid).map Comp.id = comps.map Comp.id := by
  induction comps with
  | nil => rfl
  | cons c rest ih =>
    simp only [removeRepFrom, List.map_cons] at ih ⊢
    rw [ih]
    congr 1
    split <;> rfl

theorem addRepTo_map_id (comps : List Comp) (cid : ℕ) (rep : ViewRep) :
    (addRepTo comps cid rep).map Comp.id = comps.map Comp.id := by
  induction comps with
  | nil => rfl
  | cons c rest ih =>
    simp only [addRepTo, List.map_cons] at ih ⊢
    rw [ih]
    congr 1
    split <;> rfl

theorem clearSelRep_fields (st : VState) :
    (clearSelRep st).current = st.current ∧ (clearSelRep st).selRep = none ∧
    (clearSelRep st).pending = st.pending ∧ (clearSelRep st).nextId = st.nextId ∧
    (clearSelRep st).sent = st.sent ∧ (clearSelRep st).console = st.console ∧
    (clearSelRep st).bridge = st.bridge ∧ (clearSelRep st).nextAttempt = st.nextAttempt := by
  unfold clearSelRep
  rcases h : st.selRep with _ | rid
  · exact ⟨rfl, h, rfl, rfl, rfl, rfl, rfl, rfl⟩
  · exact ⟨rfl, rfl, rfl, rfl, rfl, rfl, rfl, rfl⟩

theorem clearSelRep_comps_of_current_none (st : VState) (h : st.current = none) :
    (clearSelRep st).comps = st.comps := by
  unfold clearSelRep
  rcases st.selRep with _ | rid
  · rfl
  · rw [h]

theorem mem_removeRepFrom {comps : List Comp} {cid rid : ℕ} {c : Comp}
    (hc : c ∈ removeRepFrom comps cid rid) :
    ∃ c0 ∈ comps, c.id = c0.id ∧ List.Sublist c.reps c0.reps := by
  unfold removeRepFrom at hc
  obtain ⟨c0, hc0, rfl⟩ := List.mem_map.mp hc
  by_cases h : c0.id = cid
  · rw [if_pos h]
    exact ⟨c0, hc0, rfl, List.filter_sublist _⟩
  · rw [if_neg h]
    exact ⟨c0, hc0, rfl, List.Sublist.refl _⟩

theorem mem_addRepTo {comps : List Comp} {cid : ℕ} {rep : ViewRep} {c : Comp}
    (hc : c ∈ addRepTo comps cid rep) :
    ∃ c0 ∈ comps, c.id = c0.id ∧
      (c.reps = c0.reps ∨ (c0.id = cid ∧ c.reps = c0.reps ++ [rep])) := by
  unfold addRepTo at hc
  obtain ⟨c0, hc0, rfl⟩ := List.mem_map.mp hc
  by_cases h : c0.id = cid
  · rw [if_pos h]
    exact ⟨c0, hc0, rfl, Or.inr ⟨h, rfl⟩⟩
  · rw [if_neg h]
    exact ⟨c0, hc0, rfl, Or.inl rfl⟩

theorem any_id_eq_of_map_id_eq {comps1 comps2 : List Comp}
    (h : comps1.map Comp.id = comps2.map Comp.id) (cid : ℕ) :
    (comps1.any fun c => c.id == cid) = (comps2.any fun c => c.id == cid) := by
  have e : ∀ (l : List Comp), (l.any fun c => c.id == cid) =
      ((l.map Comp.id).any fun i => i == cid) := by
    intro l
    induction l with
    | nil => rfl
    | cons c rest ih => simp only [List.any_cons, List.map_cons, ih]
  rw [e, e, h]

theorem clearSelRep_comps_cases (st : VState) :
    (clearSelRep st).comps = st.comps ∨
    ∃ cid rid, st.current = some cid ∧ st.selRep = some rid ∧
      (clearSelRep st).comps = removeRepFrom st.comps cid rid := by
  unfold clearSelRep
  rcases hsel : st.selRep with _ | rid
  · exact Or.inl rfl
  · rcases hcur : st.current with _ | cid
    · exact Or.inl rfl
    · exact Or.inr ⟨cid, rid, rfl, rfl, rfl⟩

theorem clearSelRep_map_id (st : VState) :
    (clearSelRep st).comps.map Comp.id = st.comps.map Comp.id := by
  rcases clearSelRep_comps_cases st with h | ⟨cid, rid, _, _, h⟩
  · rw [h]
  · rw [h, removeRepFrom_map_id]

theorem clearSelRep_overlays (st : VState) (hg : GoodState st) :
    overlaysIn (clearSelRep st).comps = [] := by
  obtain ⟨inv1, _, _, _, _⟩ := hg
  rw [overlaysIn_eq_nil_iff]
  intro c hc r hr
  refine Bool.eq_false_iff.mpr fun hov => ?_
  unfold clearSelRep at hc
  rcases hsel : st.selRep with _ | rid <;> rw [hsel] at hc
  · have h1 := (inv1 c hc r hr hov).1
    rw [hsel] at h1
    exact Option.noConfusion h1
  · rcases hcur : st.current with _ | cid <;> rw [hcur] at hc
    · have h2 := (inv1 c hc r hr hov).2
      rw [hcur] at h2
      exact Option.noConfusion h2
    · have hc2 : c ∈ removeRepFrom st.comps cid rid := hc
      unfold removeRepFrom at hc2
      obtain ⟨c0, hc0, rfl⟩ := List.mem_map.mp hc2
      by_cases hcid : c0.id = cid
      · rw [if_pos hcid] at hr
        obtain ⟨hr0, hrid⟩ := List.mem_filter.mp hr
        have h1 := (inv1 c0 hc0 r hr0 hov).1
        rw [hsel] at h1
        have he : rid = r.id := by injection h1
        simp [he] at hrid
      · rw [if_neg hcid] at hr
        have h2 := (inv1 c0 hc0 r hr hov).2
        rw [hcur] at h2
        have he : cid = c0.id := by injection h2
        exact hcid he.symm

theorem clearSelRep_good (st : VState) (hg : GoodState st) :
    GoodState (clearSelRep st) := by
  have hover := clearSelRep_overlays st hg
  obtain ⟨inv1, inv2, inv3, inv4, inv5⟩ := hg
  obtain ⟨f1, f2, _, f4, _, _, _, _⟩ := clearSelRep_fields st
  have hcomps : ∀ c ∈ (clearSelRep st).comps,
      ∃ c0 ∈ st.comps, c.id = c0.id ∧ List.Sublist c.reps c0.reps := by
    intro c hc
    rcases clearSelRep_comps_cases st with h | ⟨cid, rid, _, _, h⟩
    · rw [h] at hc
      exact ⟨c, hc, rfl, List.Sublist.refl _⟩
    · rw [h] at hc
      exact mem_removeRepFrom hc
  refine ⟨?_, ?_, ?_, ?_, ?_⟩
  · intro c hc r hr hov
    have := (overlaysIn_eq_nil_iff _).mp hover c hc r hr
    rw [hov] at this
    exact absurd this (by simp)
  · intro c hc
    obtain ⟨c0, hc0, hid, hsub⟩ := hcomps c hc
    obtain ⟨hb1, hb2⟩ := inv2 c0 hc0
    rw [f4, hid]
    exact ⟨hb1, fun r hr => hb2 r (hsub.mem hr)⟩
  · rw [clearSelRep_map_id]
    exact inv3
  · intro c hc
    obtain ⟨c0, hc0, _, hsub⟩ := hcomps c hc
    exact (inv4 c0 hc0).sublist (hsub.map ViewRep.id)
  · rw [f1]
    rcases hcur : st.current with _ | cid
    · rfl
    · rw [hcur] at inv5
      simp only [Option.all_some] at inv5 ⊢
      rw [any_id_eq_of_map_id_eq (clearSelRep_map_id st) cid]
      exact inv5

theorem addRepTo_of_no_match {comps : List Comp} {cid : ℕ} (rep : ViewRep)
    (h : ∀ c ∈ comps, c.id ≠ cid) : addRepTo comps cid rep = comps := by
  induction comps with
  | nil => rfl
  | cons c rest ih =>
    simp only [addRepTo, List.map_cons] at ih ⊢
    rw [if_neg (h c (List.mem_cons_self _ _)),
      ih fun c' hc' => h c' (List.mem_cons_of_mem _ hc')]

theorem addRepTo_overlays :
    ∀ (comps : List Comp) (cid : ℕ) (rep : ViewRep),
      (comps.map Comp.id).Nodup → (∃ c ∈ comps, c.id = cid) →
      overlaysIn comps = [] → isOverlay rep = true →
      overlaysIn (addRepTo comps cid rep) = [rep]
  | [], _, _, _, hex, _, _ => by simp at hex
  | c :: rest, cid, rep, hnd, hex, hno, hov => by
    have hno2 : c.reps.filter isOverlay = [] ∧ overlaysIn rest = [] := by
      simpa [overlaysIn] using hno
    have hnd2 : (c.id :: rest.map Comp.id).Nodup := by simpa using hnd
    by_cases h : c.id = cid
    · have hrest : ∀ c' ∈ rest, c'.id ≠ cid := by
        intro c' hc' heq
        exact (List.nodup_cons.mp hnd2).1
          (by rw [h, ← heq]; exact List.mem_map_of_mem Comp.id hc')
      show overlaysIn
        ((if c.id = cid then { c with reps := c.reps ++ [rep] } else c) ::
          addRepTo rest cid rep) = [rep]
      rw [if_pos h, addRepTo_of_no_match rep hrest]
      show ((c.reps ++ [rep]).filter isOverlay) ++ overlaysIn rest = [rep]
      rw [List.filter_append, hno2.1, hno2.2]
      simp [hov]
    · have hex2 : ∃ c' ∈ rest, c'.id = cid := by
        obtain ⟨c1, hc1, hc1id⟩ := hex
        rcases List.mem_cons.mp hc1 with rfl | hc1'
        · exact absurd hc1id h
        · exact ⟨c1, hc1', hc1id⟩
      have ih := addRepTo_overlays rest cid rep (List.nodup_cons.mp hnd2).2 hex2 hno2.2 hov
      show overlaysIn
        ((if c.id = cid then { c with reps := c.reps ++ [rep] } else c) ::
          addRepTo rest cid rep) = [rep]
      rw [if_neg h]
      show (c.reps.filter isOverlay) ++ overlaysIn (addRepTo rest cid rep) = [rep]
      rw [hno2.1, ih]
      rfl

theorem filter_overlay_len_le_one :
    ∀ (l : List ViewRep) (rid : ℕ), (l.map ViewRep.id).Nodup →
      (∀ r ∈ l, isOverlay r = true → r.id = rid) →
      (l.filter isOverlay).length ≤ 1
  | [], _, _, _ => by simp
  | r :: rest, rid, hnd, hid => by
    have hnd2 : (r.id :: rest.map ViewRep.id).Nodup := by simpa using hnd
    by_cases h : isOverlay r = true
    · have hrest : rest.filter isOverlay = [] := by
        rw [List.filter_eq_nil_iff]
        intro r2 hr2 hov2
        have e1 : r2.id = rid := hid r2 (List.mem_cons_of_mem _ hr2) (by simpa using hov2)
        have e2 : r.id = rid := hid r (List.mem_cons_self _ _) h
        exact (List.nodup_cons.mp hnd2).1
          (by rw [e2, ← e1]; exact List.mem_map_of_mem ViewRep.id hr2)
      simp [List.filter_cons, h, hrest]
    · have ih := filter_overlay_len_le_one rest rid (List.nodup_cons.mp hnd2).2
        fun r2 hr2 hov2 => hid r2 (List.mem_cons_of_mem _ hr2) hov2
      simpa [List.filter_cons, h] using ih

theorem overlaysIn_len_le_one :
    ∀ (comps : List Comp) (selR cur : Option ℕ),
      (∀ c ∈ comps, ∀ r ∈ c.reps, isOverlay r = true → selR = some r.id ∧ cur = some c.id) →
      (comps.map Comp.id).Nodup →
      (∀ c ∈ comps, (c.reps.map ViewRep.id).Nodup) →
      (overlaysIn comps).length ≤ 1
  | [], _, _, _, _, _ => by simp [overlaysIn]
  | c :: rest, selR, cur, h1, h2, h3 => by
    have hnd2 : (c.id :: rest.map Comp.id).Nodup := by simpa using h2
    by_cases hf : c.reps.filter isOverlay = []
    · have ih := overlaysIn_len_le_one rest selR cur
        (fun c' hc' => h1 c' (List.mem_cons_of_mem _ hc'))
        (List.nodup_cons.mp hnd2).2
        (fun c' hc' => h3 c' (List.mem_cons_of_mem _ hc'))
      show ((c.reps.filter isOverlay) ++ overlaysIn rest).length ≤ 1
      rw [hf]
      simpa using ih
    · obtain ⟨r0, hr0f⟩ := List.exists_mem_of_ne_nil _ hf
      obtain ⟨hr0, hr0ov⟩ := List.mem_filter.mp hr0f
      obtain ⟨hsel0, hcur0⟩ := h1 c (List.mem_cons_self _ _) r0 hr0 (by simpa using hr0ov)
      have hrest : overlaysIn rest = [] := by
        rw [overlaysIn_eq_nil_iff]
        intro c' hc' r' hr'
        refine Bool.eq_false_iff.mpr fun hov' => ?_
        have hcur' := (h1 c' (List.mem_cons_of_mem _ hc') r' hr' hov').2
        rw [hcur0] at hcur'
        have he : c.id = c'.id := by injection hcur'
        exact (List.nodup_cons.mp hnd2).1 (by rw [he]; exact List.mem_map_of_mem Comp.id hc')
      have hhead : (c.reps.filter isOverlay).length ≤ 1 := by
        rcases hsel : selR with _ | rid
        · rw [hsel] at hsel0
          exact Option.noConfusion hsel0
        · refine filter_overlay_len_le_one c.reps rid (h3 c (List.mem_cons_self _ _)) ?_
          intro r hr hov
          have h1' := (h1 c (List.mem_cons_self _ _) r hr hov).1
          rw [hsel] at h1'
          have he : rid = r.id := by injection h1'
          exact he.symm
      show ((c.reps.filter isOverlay) ++ overlaysIn rest).length ≤ 1
      rw [hrest, List.length_append]
      simpa using hhead

theorem goodState_overlays_le_one (st : VState) (hg : GoodState st) :
    (overlaysOf st).length ≤ 1 := by
  obtain ⟨inv1, _, inv3, inv4, _⟩ := hg
  exact overlaysIn_len_le_one st.comps st.selRep st.current inv1 inv3 inv4

theorem exists_comp_of_current (st : VState) (hg : GoodState st) {cid : ℕ}
    (hcur : st.current = some cid) : ∃ c ∈ st.comps, c.id = cid := by
  obtain ⟨_, _, _, _, inv5⟩ := hg
  rw [hcur] at inv5
  simp only [Option.all_some] at inv5
  obtain ⟨c, hc, he⟩ := List.any_eq_true.mp inv5
  exact ⟨c, hc, by simpa using he⟩

theorem hlFinish_current (st : VState) (serials : List ℤ) :
    (hlFinish st serials).current = st.current := by
  unfold hlFinish
  split
  · exact (sendLog_fields _ _).2.1
  · split
    · exact (sendLog_fields _ _).2.1
    · show (sendLog st _).current = st.current
      exact (sendLog_fields _ _).2.1

theorem highlightAtoms_current (st : VState) (serials : List ℤ) :
    (highlightAtoms st serials).current = st.current := by
  unfold highlightAtoms
  rw [hlFinish_current, (clearSelRep_fields _).1, (sendLog_fields _ _).2.1]

theorem hlFinish_overlays (st : VState) (serials : List ℤ) (hg : GoodState st)
    (hno : overlaysIn st.comps = []) :
    overlaysOf (hlFinish st serials) =
      if serials = [] ∨ st.current = none then [] else [mkOverlay st.nextId serials] := by
  unfold hlFinish
  by_cases hs : serials = []
  · rw [if_pos hs, if_pos (Or.inl hs)]
    unfold overlaysOf
    rw [(sendLog_fields _ _).1]
    exact hno
  · rw [if_neg hs]
    rcases hcur : st.current with _ | cid
    · rw [if_pos (Or.inr rfl)]
      unfold overlaysOf
      rw [(sendLog_fields _ _).1]
      exact hno
    · rw [if_neg (by simp [hs])]
      show overlaysIn (addRepTo (sendLog st (.logCreating (hlSele serials))).comps cid
        (mkOverlay (sendLog st (.logCreating (hlSele serials))).nextId serials)) =
          [mkOverlay st.nextId serials]
      rw [(sendLog_fields _ _).1, (sendLog_fields _ _).2.2.2.2.1]
      exact addRepTo_overlays st.comps cid (mkOverlay st.nextId serials)
        hg.2.2.1 (exists_comp_of_current st hg hcur) hno rfl

theorem hlFinish_good (st : VState) (serials : List ℤ) (hg : GoodState st)
    (hno : overlaysIn st.comps = []) : GoodState (hlFinish st serials) := by
  unfold hlFinish
  obtain ⟨inv1, inv2, inv3, inv4, inv5⟩ := hg
  by_cases hs : serials = []
  · rw [if_pos hs]
    exact sendLog_good _ _ ⟨inv1, inv2, inv3, inv4, inv5⟩
  · rw [if_neg hs]
    rcases hcur : st.current with _ | cid
    · exact sendLog_good _ _ ⟨inv1, inv2, inv3, inv4, inv5⟩
    · have hmapid : (addRepTo (sendLog st (.logCreating (hlSele serials))).comps cid
          (mkOverlay (sendLog st (.logCreating (hlSele serials))).nextId serials)).map Comp.id =
          st.comps.map Comp.id := by
        rw [addRepTo_map_id, (sendLog_fields _ _).1]
      have hcompsmem : ∀ c ∈ (addRepTo (sendLog st (.logCreating (hlSele serials))).comps cid
          (mkOverlay (sendLog st (.logCreating (hlSele serials))).nextId serials)),
          ∃ c0 ∈ st.comps, c.id = c0.id ∧
            (c.reps = c0.reps ∨
              (c0.id = cid ∧ c.reps = c0.reps ++ [mkOverlay st.nextId serials])) := by
        intro c hc
        rw [(sendLog_fields _ _).1, (sendLog_fields _ _).2.2.2.2.1] at hc
        exact mem_addRepTo hc
      have hnoov : ∀ c0 ∈ st.comps, ∀ r ∈ c0.reps, isOverlay r = false :=
        (overlaysIn_eq_nil_iff _).mp hno
      refine ⟨?_, ?_, ?_, ?_, ?_⟩
      · intro c hc r hr hov
        obtain ⟨c0, hc0, hid, hcase⟩ := hcompsmem c hc
        rcases hcase with he | ⟨hcid, he⟩
        · rw [he] at hr
          rw [hnoov c0 hc0 r hr] at hov
          exact absurd hov (by simp)
        · rw [he] at hr
          rcases List.mem_append.mp hr with hr0 | hr1
          · rw [hnoov c0 hc0 r hr0] at hov
            exact absurd hov (by simp)
          · have : r = mkOverlay st.nextId serials := by simpa using hr1
            subst this
            refine ⟨?_, ?_⟩
            · show some ((sendLog st (.logCreating (hlSele serials))).nextId) = _
              rw [(sendLog_fields _ _).2.2.2.2.1]
              rfl
            · show (sendLog st (.logCreating (hlSele serials))).current = _
              rw [(sendLog_fields _ _).2.1, hcur, hid, hcid]
      · intro c hc
        obtain ⟨c0, hc0, hid, hcase⟩ := hcompsmem c hc
        obtain ⟨hb1, hb2⟩ := inv2 c0 hc0
        have hnext : (sendLog st (Event.logCreating (hlSele serials))).nextId = st.nextId :=
          (sendLog_fields _ _).2.2.2.2.1
        constructor
        · show c.id < (sendLog st (Event.logCreating (hlSele serials))).nextId + 1
          rw [hnext, hid]
          omega
        · intro r hr
          show r.id < (sendLog st (Event.logCreating (hlSele serials))).nextId + 1
          rw [hnext]
          rcases hcase with he | ⟨_, he⟩
          · rw [he] at hr
            have := hb2 r hr
            omega
          · rw [he] at hr
            rcases List.mem_append.mp hr with hr0 | hr1
            · have := hb2 r hr0
              omega
            · have hre : r = mkOverlay st.nextId serials := by simpa using hr1
              rw [hre]
              show st.nextId < st.nextId + 1
              omega
      · show (addRepTo _ _ _).map Comp.id |>.Nodup
        rw [hmapid]
        exact inv3
      · intro c hc
        obtain ⟨c0, hc0, _, hcase⟩ := hcompsmem c hc
        rcases hcase with he | ⟨_, he⟩
        · rw [he]
          exact inv4 c0 hc0
        · rw [he, List.map_append]
          refine List.Nodup.append (inv4 c0 hc0) (by simp) ?_
          intro x hx hx2
          simp only [List.map_cons, List.map_nil, List.mem_singleton] at hx2
          obtain ⟨r0, hr0, hr0id⟩ := List.mem_map.mp hx
          have := (inv2 c0 hc0).2 r0 hr0
          rw [hr0id] at this
          rw [hx2] at this
          exact absurd this (by simp [mkOverlay])
      · show (Option.all _ (sendLog st (.logCreating (hlSele serials))).current) = true
        rw [(sendLog_fields _ _).2.1, hcur]
        simp only [Option.all_some]
        show ((addRepTo (sendLog st (Event.logCreating (hlSele serials))).comps cid
          (mkOverlay (sendLog st (Event.logCreating (hlSele serials))).nextId serials)).any
            fun c => c.id == cid) = true
        rw [any_id_eq_of_map_id_eq hmapid cid]
        rw [hcur] at inv5
        simpa only [Option.all_some] using inv5

theorem highlightAtoms_overlays (st : VState) (serials : List ℤ) (hg : GoodState st) :
    overlaysOf (highlightAtoms st serials) =
      if serials = [] ∨ st.current = none then [] else [mkOverlay st.nextId serials] := by
  unfold highlightAtoms
  have hg1 := sendLog_good st (.logHighlightCalled serials) hg
  have hg2 := clearSelRep_good _ hg1
  have hno := clearSelRep_overlays _ hg1
  have hcur : (clearSelRep (sendLog st (.logHighlightCalled serials))).current = st.current := by
    rw [(clearSelRep_fields _).1, (sendLog_fields _ _).2.1]
  have hnext : (clearSelRep (sendLog st (.logHighlightCalled serials))).nextId = st.nextId := by
    rw [(clearSelRep_fields _).2.2.2.1, (sendLog_fields _ _).2.2.2.2.1]
  rw [hlFinish_overlays _ serials hg2 hno, hcur, hnext]

theorem highlightAtoms_good (st : VState) (serials : List ℤ) (hg : GoodState st) :
    GoodState (highlightAtoms st serials) := by
  unfold highlightAtoms
  have hg1 := sendLog_good st (.logHighlightCalled serials) hg
  have hg2 := clearSelRep_good _ hg1
  exact hlFinish_good _ serials hg2 (clearSelRep_overlays _ hg1)

theorem highlightAtoms_seles (st : VState) (serials : List ℤ) (hg : GoodState st) :
    overlaySeles (highlightAtoms st serials) =
      if serials = [] ∨ st.current = none then [] else [hlSele serials] := by
  unfold overlaySeles
  rw [highlightAtoms_overlays st serials hg]
  split <;> rfl

theorem foldl_highlight_good :
    ∀ (calls : List (List ℤ)) (st : VState), GoodState st →
      GoodState (calls.foldl highlightAtoms st)
  | [], _, hg => hg
  | s :: rest, st, hg => by
    rw [List.foldl_cons]
    exact foldl_highlight_good rest (highlightAtoms st s) (highlightAtoms_good st s hg)

theorem highlightAtoms_eq_of_clear (st : VState) (serials : List ℤ)
    (h : serials = [] ∨ st.current = none) :
    highlightAtoms st serials =
      sendLog (clearSelRep (sendLog st (.logHighlightCalled serials)))
        (.logClearing (if serials = [] then .emptySerials else .noComponent)) := by
  unfold highlightAtoms hlFinish
  by_cases hs : serials = []
  · rw [if_pos hs, if_pos hs]
  · rw [if_neg hs, if_neg hs]
    have hcur : (clearSelRep (sendLog st (.logHighlightCalled serials))).current = none := by
      rw [(clearSelRep_fields _).1, (sendLog_fields _ _).2.1]
      exact h.resolve_left hs
    rw [hcur]

/--
Claim C6: `setHighlight` is idempotent — calling it twice in succession with
the same serial list leaves exactly one overlay representation with the same
selection as a single call — and more generally, from any invariant-satisfying
state, any sequence of `setHighlight` calls leaves at most one overlay on the
stage, because each call removes the previous overlay before rebuilding.
-/
theorem highlight_idempotent_single_overlay (st : VState) (hg : GoodState st) :
    (∀ serials, overlaySeles (highlightAtoms (highlightAtoms st serials) serials) =
        overlaySeles (highlightAtoms st serials)) ∧
    (∀ serials, serials ≠ [] → st.current ≠ none →
      overlaySeles (highlightAtoms (highlightAtoms st serials) serials) = [hlSele serials] ∧
      (overlaysOf (highlightAtoms (highlightAtoms st serials) serials)).length = 1) ∧
    (∀ calls : List (List ℤ),
      (overlaysOf (calls.foldl highlightAtoms st)).length ≤ 1) := by
  have key : ∀ serials,
      overlaySeles (highlightAtoms (highlightAtoms st serials) serials) =
        if serials = [] ∨ st.current = none then [] else [hlSele serials] := by
    intro serials
    rw [highlightAtoms_seles _ serials (highlightAtoms_good st serials hg),
      highlightAtoms_current]
  refine ⟨?_, ?_, ?_⟩
  · intro serials
    rw [key serials, highlightAtoms_seles st serials hg]
  · intro serials hs hc
    have hcond : ¬(serials = [] ∨ st.current = none) := fun h => h.elim hs hc
    constructor
    · rw [key serials, if_neg hcond]
    · rw [highlightAtoms_overlays _ serials (highlightAtoms_good st serials hg),
        highlightAtoms_current, if_neg hcond]
      rfl
  · intro calls
    exact goodState_overlays_le_one _ (foldl_highlight_good calls st hg)

/-- A loaded state with one empty component, used to witness the highlight
claims at a concrete input. -/
def demoState : VState :=
  { bridge := true, sent := [], console := [], comps := [{ id := 0, text := [], reps := [] }],
    current := some 0, selRep := none, pending := [], nextId := 1, nextAttempt := 1 }

/-- Witness for C6 at a concrete state and serial list. -/
theorem highlight_idempotent_single_overlay_witness :
    GoodState demoState ∧
    (overlaySeles (highlightAtoms (highlightAtoms demoState [1, 5, 10]) [1, 5, 10]) =
        overlaySeles (highlightAtoms demoState [1, 5, 10]) ∧
      (overlaysOf (highlightAtoms (highlightAtoms demoState [1, 5, 10]) [1, 5, 10])).length = 1 ∧
      (overlaysOf ([[1], [2], []].foldl highlightAtoms demoState)).length ≤ 1) :=
  have h := highlight_idempotent_single_overlay demoState (by decide)
  ⟨by decide,
    h.1 [1, 5, 10],
    (h.2.1 [1, 5, 10] (by decide) (by decide)).2,
    h.2.2 [[1], [2], []]⟩

/--
Claim C7: for every serial list, if the list is empty or no component exists,
`setHighlight` leaves zero overlay representations (in particular an empty
call after any prior non-empty call clears the overlay), raises no error, and
logs a reason distinguishing empty input from a missing structure; with no
structure loaded the state is unchanged except for the two log entries (the
entry log and the reason log), which go to the bridge when attached and to
the console otherwise.
-/
theorem highlight_empty_or_no_component (st : VState) (serials : List ℤ) (hg : GoodState st)
    (h : serials = [] ∨ st.current = none) :
    overlaysOf (highlightAtoms st serials) = [] ∧
    (st.bridge = true →
      (highlightAtoms st serials).sent = st.sent ++
        [Event.logHighlightCalled serials,
         Event.logClearing (if serials = [] then .emptySerials else .noComponent)] ∧
      (highlightAtoms st serials).console = st.console) ∧
    (st.bridge = false →
      (highlightAtoms st serials).console = st.console ++
        [Event.logHighlightCalled serials,
         Event.logClearing (if serials = [] then .emptySerials else .noComponent)] ∧
      (highlightAtoms st serials).sent = st.sent) ∧
    (st.current = none →
      (highlightAtoms st serials).comps = st.comps ∧
      (highlightAtoms st serials).current = none ∧
      (highlightAtoms st serials).pending = st.pending) := by
  obtain ⟨cf1, cf2, cf3, cf4, cf5, cf6, cf7, cf8⟩ :=
    clearSelRep_fields (sendLog st (.logHighlightCalled serials))
  refine ⟨?_, ?_, ?_, ?_⟩
  · rw [highlightAtoms_overlays st serials hg, if_pos h]
  · intro hb
    have hb1 : (sendLog st (.logHighlightCalled serials)).bridge = true := by
      rw [(sendLog_fields _ _).2.2.2.2.2.2]
      exact hb
    have hb2 : (clearSelRep (sendLog st (.logHighlightCalled serials))).bridge = true := by
      rw [cf7]
      exact hb1
    have e1 : (sendLog st (.logHighlightCalled serials)).sent =
        st.sent ++ [Event.logHighlightCalled serials] := by
      rw [sendLog_of_bridge _ _ hb]
    have e0 : (sendLog st (.logHighlightCalled serials)).console = st.console := by
      rw [sendLog_of_bridge _ _ hb]
    have e2 : (highlightAtoms st serials).sent =
        (clearSelRep (sendLog st (.logHighlightCalled serials))).sent ++
          [Event.logClearing (if serials = [] then .emptySerials else .noComponent)] := by
      rw [highlightAtoms_eq_of_clear st serials h, sendLog_of_bridge _ _ hb2]
    have e3 : (highlightAtoms st serials).console =
        (clearSelRep (sendLog st (.logHighlightCalled serials))).console := by
      rw [highlightAtoms_eq_of_clear st serials h, sendLog_of_bridge _ _ hb2]
    rw [e2, e3, cf5, cf6, e1, e0]
    simp
  · intro hb
    have hb1 : (sendLog st (.logHighlightCalled serials)).bridge = false := by
      rw [(sendLog_fields _ _).2.2.2.2.2.2]
      exact hb
    have hb2 : (clearSelRep (sendLog st (.logHighlightCalled serials))).bridge = false := by
      rw [cf7]
      exact hb1
    have e1 : (sendLog st (.logHighlightCalled serials)).console =
        st.console ++ [Event.logHighlightCalled serials] := by
      rw [sendLog_of_no_bridge _ _ hb]
    have e0 : (sendLog st (.logHighlightCalled serials)).sent = st.sent := by
      rw [sendLog_of_no_bridge _ _ hb]
    have e2 : (highlightAtoms st serials).console =
        (clearSelRep (sendLog st (.logHighlightCalled serials))).console ++
          [Event.logClearing (if serials = [] then .emptySerials else .noComponent)] := by
      rw [highlightAtoms_eq_of_clear st serials h, sendLog_of_no_bridge _ _ hb2]
    have e3 : (highlightAtoms st serials).sent =
        (clearSelRep (sendLog st (.logHighlightCalled serials))).sent := by
      rw [highlightAtoms_eq_of_clear st serials h, sendLog_of_no_bridge _ _ hb2]
    rw [e2, e3, cf5, cf6, e1, e0]
    simp
  · intro hnone
    have hcur1 : (sendLog st (.logHighlightCalled serials)).current = none := by
      rw [(sendLog_fields _ _).2.1]
      exact hnone
    refine ⟨?_, ?_, ?_⟩
    · rw [highlightAtoms_eq_of_clear st serials h, (sendLog_fields _ _).1,
        clearSelRep_comps_of_current_none _ hcur1, (sendLog_fields _ _).1]
    · rw [highlightAtoms_current]
      exact hnone
    · rw [highlightAtoms_eq_of_clear st serials h, (sendLog_fields _ _).2.2.2.1, cf3,
        (sendLog_fields _ _).2.2.2.1]

/-- Witness for C7: a highlight with serials `[3]` and no structure loaded
leaves no overlay and only the two log entries (reason: no component). -/
theorem highlight_empty_or_no_component_witness :
    GoodState (initState true) ∧
    (overlaysOf (highlightAtoms (initState true) [3]) = [] ∧
      (highlightAtoms (initState true) [3]).sent =
        [Event.logHighlightCalled [3], Event.logClearing .noComponent] ∧
      (highlightAtoms (initState true) [3]).comps = [] ∧
      (highlightAtoms (initState true) [3]).current = none) :=
  have h := highlight_empty_or_no_component (initState true) [3] (by decide) (Or.inr rfl)
  ⟨by decide,
    h.1,
    by
      have h2 := (h.2.1 rfl).1
      simpa using h2,
    (h.2.2.2 rfl).1,
    (h.2.2.2 rfl).2.1⟩

/--
Claim C4: for every non-empty serial list issued while a current component
exists (in an invariant-satisfying state), the overlay built by
`setHighlight` carries exactly the selection that is the logical OR, over
every serial `s` of the list, of "atom index equals `s - 1`" — the 1-based
serials translated to the renderer's 0-based indices.
-/
theorem highlight_serial_selection (st : VState) (serials : List ℤ) (hg : GoodState st)
    (hc : st.current ≠ none) (hs : serials ≠ []) :
    overlaysOf (highlightAtoms st serials) = [mkOverlay st.nextId serials] ∧
    (mkOverlay st.nextId serials).sele = hlSele serials ∧
    (∀ a : Atom, (hlSele serials).selects a = true ↔ ∃ s ∈ serials, a.idx = s - 1) := by
  refine ⟨?_, rfl, selects_hlSele serials⟩
  rw [highlightAtoms_overlays st serials hg, if_neg (fun h => h.elim hs hc)]

/-- Witness for C4: serials `[1, 5, 10]` select exactly the atom indices
0, 4 and 9. -/
theorem highlight_serial_selection_witness :
    GoodState demoState ∧
    overlaysOf (highlightAtoms demoState [1, 5, 10]) = [mkOverlay 1 [1, 5, 10]] ∧
    (∀ a : Atom, (hlSele [1, 5, 10]).selects a = true ↔
      (a.idx = 0 ∨ a.idx = 4 ∨ a.idx = 9)) :=
  have h := highlight_serial_selection demoState [1, 5, 10] (by decide) (by decide) (by decide)
  ⟨by decide, h.1, fun a => by
    rw [h.2.2 a]
    constructor
    · rintro ⟨s, hs, hidx⟩
      rcases List.mem_cons.mp hs with rfl | hs2
      · exact Or.inl (by omega)
      rcases List.mem_cons.mp hs2 with rfl | hs3
      · exact Or.inr (Or.inl (by omega))
      rcases List.mem_cons.mp hs3 with rfl | hs4
      · exact Or.inr (Or.inr (by omega))
      · simp at hs4
    · rintro (h1 | h1 | h1)
      · exact ⟨1, by simp, by omega⟩
      · exact ⟨5, by simp, by omega⟩
      · exact ⟨10, by simp, by omega⟩⟩

/-! ## Load lemmas -/

theorem tearDownSome_current (st : VState) (o : TearOracle) (cid : ℕ) :
    (tearDownSome st o cid).current = none := by
  unfold tearDownSome
  split
  · rfl
  · split <;> rfl

theorem tearDownSome_pending (st : VState) (o : TearOracle) (cid : ℕ) :
    (tearDownSome st o cid).pending = st.pending := by
  unfold tearDownSome
  split
  · rfl
  · split <;> rfl

theorem tearDownSome_nextAttempt (st : VState) (o : TearOracle) (cid : ℕ) :
    (tearDownSome st o cid).nextAttempt = st.nextAttempt := by
  unfold tearDownSome
  split
  · rfl
  · split <;> rfl

theorem tearDown_current (st : VState) (o : TearOracle) : (tearDown st o).current = none := by
  unfold tearDown
  rcases hcur : st.current with _ | cid
  · exact hcur
  · exact tearDownSome_current st o cid

theorem tearDown_pending (st : VState) (o : TearOracle) : (tearDown st o).pending = st.pending := by
  unfold tearDown
  rcases hcur : st.current with _ | cid
  · rfl
  · exact tearDownSome_pending st o cid

theorem tearDown_nextAttempt (st : VState) (o : TearOracle) :
    (tearDown st o).nextAttempt = st.nextAttempt := by
  unfold tearDown
  rcases hcur : st.current with _ | cid
  · rfl
  · exact tearDownSome_nextAttempt st o cid

theorem tearDown_comps_clean (st : VState) (o : TearOracle) {cid : ℕ}
    (hcur : st.current = some cid) (h1 : o.failRemoveAll = false) (h2 : o.failRemove = false) :
    (tearDown st o).comps =
      (st.comps.map fun c => if c.id = cid then { c with reps := [] } else c).filter
        fun c => c.id != cid := by
  unfold tearDown
  rw [hcur]
  show (tearDownSome st o cid).comps = _
  unfold tearDownSome
  rw [if_neg (by simp [h1]), if_neg (by simp [h2])]

theorem loadCall_spec (st : VState) (text : CU) (o : TearOracle) :
    (loadCall st text o).current = none ∧
    (loadCall st text o).pending = st.pending ++
      [{ attempt := st.nextAttempt, text := text,
         resnames := extractUniqueResnames text,
         scheme := generateColorScheme (extractUniqueResnames text) }] ∧
    (loadCall st text o).nextAttempt = st.nextAttempt + 1 ∧
    (loadCall st text o).comps = (tearDown st o).comps := by
  refine ⟨?_, ?_, ?_, ?_⟩
  · show (sendLog (tearDown st o)
      (.logDetected (extractUniqueResnames text)
        (generateColorScheme (extractUniqueResnames text)))).current = none
    rw [(sendLog_fields _ _).2.1, tearDown_current]
  · show (sendLog (tearDown st o)
      (.logDetected (extractUniqueResnames text)
        (generateColorScheme (extractUniqueResnames text)))).pending ++
      [{ attempt := (sendLog (tearDown st o)
          (.logDetected (extractUniqueResnames text)
            (generateColorScheme (extractUniqueResnames text)))).nextAttempt,
         text := text,
         resnames := extractUniqueResnames text,
         scheme := generateColorScheme (extractUniqueResnames text) }] = _
    rw [(sendLog_fields _ _).2.2.2.1, (sendLog_fields _ _).2.2.2.2.2.1,
      tearDown_pending, tearDown_nextAttempt]
  · show (sendLog (tearDown st o)
      (.logDetected (extractUniqueResnames text)
        (generateColorScheme (extractUniqueResnames text)))).nextAttempt + 1 = _
    rw [(sendLog_fields _ _).2.2.2.2.2.1, tearDown_nextAttempt]
  · show (sendLog (tearDown st o)
      (.logDetected (extractUniqueResnames text)
        (generateColorScheme (extractUniqueResnames text)))).comps = _
    rw [(sendLog_fields _ _).1]

theorem loadResolveErr_spec (st : VState) (a : ℕ) :
    (loadResolveErr st a).current = st.current ∧
    (loadResolveErr st a).comps = st.comps ∧
    (loadResolveErr st a).selRep = st.selRep ∧
    (a ∈ st.pending.map PendingLoad.attempt →
      (loadResolveErr st a).console = st.console ++ [Event.loadError] ∧
      (loadResolveErr st a).pending = st.pending.filter fun q => q.attempt != a) := by
  unfold loadResolveErr
  split
  · rename_i heq
    refine ⟨rfl, rfl, rfl, ?_⟩
    intro hmem
    exfalso
    obtain ⟨q, hq, hqa⟩ := List.mem_map.mp hmem
    have hx : ∃ x ∈ st.pending, (fun p => p.attempt == a) x = true := ⟨q, hq, by simp [hqa]⟩
    have h2 := List.find?_isSome.mpr hx
    rw [heq] at h2
    simp at h2
  · exact ⟨rfl, rfl, rfl, fun _ => ⟨rfl, rfl⟩⟩

/--
Claim C8: every `load(text)` call first tears the previous component down —
with teardown errors swallowed so that, whichever engine call throws, the
reference is cleared and the new load is still registered and logged — and an
asynchronous load failure only writes to the error channel and drops the
pending attempt: no retry is scheduled, no component is created, and the
component list, current reference and overlay reference are untouched (so a
system that was Empty stays Empty).
-/
theorem load_teardown_and_failure :
    (∀ (st : VState) (text : CU) (o : TearOracle),
      (loadCall st text o).current = none ∧
      (loadCall st text o).pending = st.pending ++
        [{ attempt := st.nextAttempt, text := text,
           resnames := extractUniqueResnames text,
           scheme := generateColorScheme (extractUniqueResnames text) }] ∧
      (loadCall st text o).nextAttempt = st.nextAttempt + 1) ∧
    (∀ (st : VState) (text : CU) (o : TearOracle) (cid : ℕ),
      st.current = some cid → o.failRemoveAll = false → o.failRemove = false →
      ∀ c ∈ (loadCall st text o).comps, c.id ≠ cid) ∧
    (∀ (st : VState) (a : ℕ),
      (loadResolveErr st a).current = st.current ∧
      (loadResolveErr st a).comps = st.comps ∧
      (loadResolveErr st a).selRep = st.selRep ∧
      (a ∈ st.pending.map PendingLoad.attempt →
        (loadResolveErr st a).console = st.console ++ [Event.loadError] ∧
        (loadResolveErr st a).pending = st.pending.filter fun q => q.attempt != a)) := by
  refine ⟨?_, ?_, ?_⟩
  · intro st text o
    obtain ⟨h1, h2, h3, _⟩ := loadCall_spec st text o
    exact ⟨h1, h2, h3⟩
  · intro st text o cid hcur h1 h2 c hc
    rw [(loadCall_spec st text o).2.2.2, tearDown_comps_clean st o hcur h1 h2] at hc
    have := (List.mem_filter.mp hc).2
    simpa using this
  · intro st a
    exact loadResolveErr_spec st a

/-- A state with one structure loaded (attempt 0 resolved). -/
def loadedState : VState := loadResolveOk (loadCall (initState true) lineALA ⟨false, false⟩) 0

/-- A state with one load still pending. -/
def pendingState : VState := loadCall (initState true) lineALA ⟨false, false⟩

/-- Witness for C8 at concrete states: a fresh load over a loaded state drops
the old component; an error completion only logs and unregisters. -/
theorem load_teardown_and_failure_witness :
    loadedState.current = some 0 ∧
    (0 : ℕ) ∈ pendingState.pending.map PendingLoad.attempt ∧
    (∀ c ∈ (loadCall loadedState lineGLY ⟨false, false⟩).comps, c.id ≠ 0) ∧
    (loadResolveErr pendingState 0).console = pendingState.console ++ [Event.loadError] :=
  ⟨by decide, by decide,
    load_teardown_and_failure.2.1 loadedState lineGLY ⟨false, false⟩ 0 (by decide) rfl rfl,
    ((load_teardown_and_failure.2.2 pendingState 0).2.2.2 (by decide)).1⟩

/-- The interleaving of C1: `load(ALA-text)`, then `load(GLY-text)` before the
first resolves, then the second attempt resolves, then the first. -/
def raceState : VState :=
  loadResolveOk (loadResolveOk
    (loadCall (loadCall (initState true) lineALA ⟨false, false⟩) lineGLY ⟨false, false⟩) 1) 0

/--
Claim C1 evaluated on the code: the completion handler of `stage.loadFile`
(line 73) assigns `currentComponent = o` with no check that its load attempt
is still the latest.  On the trace load(t1); load(t2); resolve(t2);
resolve(t1), the final state keeps BOTH components on the stage, each with
its representations, and `currentComponent` is the component of the FIRST
(superseded) text — not only the second structure, as the claim requires.
-/
theorem stale_load_race_eval :
    raceState.pending = [] ∧
    raceState.comps.map Comp.text = [lineGLY, lineALA] ∧
    raceState.current = some 2 ∧
    (∃ c ∈ raceState.comps, c.id = 2 ∧ c.text = lineALA ∧ c.reps.length = 1) ∧
    (∃ c ∈ raceState.comps, c.text = lineGLY ∧ c.reps.length = 1) ∧
    lineALA ≠ lineGLY := by
  decide

/-- Counterexample to C5 as stated: with no bridge attached, a resolved pick
event is dropped entirely — the state is unchanged, nothing is written to the
local diagnostic stream. -/
theorem pick_dropped_counterexample :
    onClicked (initState false) (some ⟨[65], 1, [65, 76, 65], [67, 65], 7⟩) = initState false ∧
    (onClicked (initState false) (some ⟨[65], 1, [65, 76, 65], [67, 65], 7⟩)).console = [] ∧
    (onClicked (initState false) (some ⟨[65], 1, [65, 76, 65], [67, 65], 7⟩)).sent = [] := by
  decide

/--
Claim C5 (amended): emitting an event never throws or blocks (all emitters
are total); `log` events degrade to the local console when no bridge is
attached and are sent otherwise, never dropped.  `pick` events, however, are
sent only when a bridge is attached and are silently dropped otherwise: the
click handler (lines 136-138) has no console fallback, which refutes the
claim as originally stated.  A click that resolves to no atom emits
nothing.
-/
theorem events_fallback_amended :
    (∀ (st : VState) (e : Event), st.bridge = false →
      (sendLog st e).console = st.console ++ [e] ∧ (sendLog st e).sent = st.sent) ∧
    (∀ (st : VState) (e : Event), st.bridge = true →
      (sendLog st e).sent = st.sent ++ [e] ∧ (sendLog st e).console = st.console) ∧
    (∀ (st : VState) (a : PickedAtom), st.bridge = true →
      (onClicked st (some a)).sent = st.sent ++
        [Event.pick a.chainname a.resno a.resname a.atomname a.serial] ∧
      (onClicked st (some a)).console = st.console) ∧
    (∀ (st : VState) (a : PickedAtom), st.bridge = false → onClicked st (some a) = st) ∧
    (∀ st : VState, onClicked st none = st) := by
  refine ⟨?_, ?_, ?_, ?_, ?_⟩
  · intro st e hb
    rw [sendLog_of_no_bridge st e hb]
    exact ⟨rfl, rfl⟩
  · intro st e hb
    rw [sendLog_of_bridge st e hb]
    exact ⟨rfl, rfl⟩
  · intro st a hb
    simp only [onClicked]
    rw [if_pos hb]
    exact ⟨rfl, rfl⟩
  · intro st a hb
    simp only [onClicked]
    rw [if_neg (by simp [hb])]
  · intro st
    rfl

/-- Witness for C5 (amended) at concrete states and events. -/
theorem events_fallback_amended_witness :
    (initState false).bridge = false ∧
    (sendLog (initState false) Event.loadError).console = [Event.loadError] ∧
    onClicked (initState false) (some ⟨[66], 2, [71, 76, 89], [78], 9⟩) = initState false :=
  ⟨rfl,
    by
      have h := (events_fallback_amended.1 (initState false) Event.loadError rfl).1
      simpa using h,
    events_fallback_amended.2.2.2.1 (initState false) ⟨[66], 2, [71, 76, 89], [78], 9⟩ rfl⟩
